import Mathlib

/-!
Shallow embedding of the SimpleTuner aspect-ratio bucketing and geometry
pipeline (`helpers/multiaspect/image.py`, `helpers/legacy/dreambooth_dataset.py`).

Machine floats are modelled by exact rationals; Python `round` (banker's
rounding) is modelled exactly; Python `int` values are `ℤ` (or `ℕ` where the
source guarantees non-negativity); fallible operations return `Option` or an
explicit result datatype.
-/

namespace SimpleTuner

/-- Python 3 `round(x)`: round half to even (banker's rounding). -/
def pyround (q : ℚ) : ℤ :=
  let f := ⌊q⌋
  let frac := q - f
  if frac < 1/2 then f
  else if 1/2 < frac then f + 1
  else if f % 2 = 0 then f else f + 1

theorem le_pyround (q : ℚ) : q - 1/2 ≤ (pyround q : ℚ) := by
  unfold pyround
  have h0 : (0:ℚ) ≤ q - ⌊q⌋ := by
    have := Int.floor_le q
    linarith
  have h1 : q - ⌊q⌋ < 1 := by
    have := Int.lt_floor_add_one q
    linarith
  dsimp only
  split
  · linarith
  · split
    · push_cast; linarith
    · split
      · linarith
      · push_cast; linarith

theorem pyround_le (q : ℚ) : (pyround q : ℚ) ≤ q + 1/2 := by
  unfold pyround
  have h0 : (0:ℚ) ≤ q - ⌊q⌋ := by
    have := Int.floor_le q
    linarith
  have h1 : q - ⌊q⌋ < 1 := by
    have := Int.lt_floor_add_one q
    linarith
  dsimp only
  split
  · linarith [Int.floor_le q]
  · split
    · push_cast; linarith
    · split
      · linarith [Int.floor_le q]
      · push_cast; linarith

/-- `MultiaspectImage._round_to_nearest_multiple`:
`rounded = round(value / multiple) * multiple; return max(rounded, multiple)`.
The alignment constant `m` is the configured `aspect_bucket_alignment`. -/
def round_to_nearest_multiple (m : ℕ) (value : ℚ) : ℤ :=
  max (pyround (value / m) * m) m

theorem round_to_nearest_multiple_dvd (m : ℕ) (value : ℚ) :
    (m:ℤ) ∣ round_to_nearest_multiple m value := by
  unfold round_to_nearest_multiple
  rcases max_choice (pyround (value / m) * m) (m:ℤ) with h | h <;> rw [h]
  exact dvd_mul_left _ _

theorem le_round_to_nearest_multiple (m : ℕ) (hm : 0 < m) (value : ℚ) :
    value - m/2 ≤ (round_to_nearest_multiple m value : ℚ) := by
  unfold round_to_nearest_multiple
  have hm' : (0:ℚ) < m := by exact_mod_cast hm
  have h := le_pyround (value / m)
  have hmul : (value / m - 1/2) * m ≤ (pyround (value / m) : ℚ) * m :=
    mul_le_mul_of_nonneg_right h (le_of_lt hm')
  have hdiv : (value / m) * m = value := div_mul_cancel₀ value (ne_of_gt hm')
  have hle : value - m/2 ≤ (pyround (value / m) : ℚ) * m := by
    have : (value / m - 1/2) * m = value - m/2 := by
      rw [sub_mul, hdiv]; ring
    linarith [this ▸ hmul]
  calc value - m/2 ≤ (pyround (value / m) : ℚ) * m := hle
    _ ≤ ((max (pyround (value / m) * m) (m:ℤ) : ℤ) : ℚ) := by
        push_cast
        exact le_max_left _ _
    _ = _ := by push_cast; ring

theorem m_le_round_to_nearest_multiple (m : ℕ) (value : ℚ) :
    (m:ℤ) ≤ round_to_nearest_multiple m value :=
  le_max_right _ _

/-- Body of the re-derivation of `H_adjusted` inside the `while` loop of
`calculate_new_size_by_pixel_edge`:
`H_adjusted = _round_to_nearest_multiple(int(round(W_adjusted * aspect_ratio)))`. -/
def pixelEdgeStepH (m : ℕ) (ar : ℚ) (W : ℤ) : ℤ :=
  round_to_nearest_multiple m ((pyround ((W : ℚ) * ar) : ℤ) : ℚ)

theorem pixelEdgeStepH_lower (m : ℕ) (hm : 0 < m) (ar : ℚ) (W : ℤ) :
    (W : ℚ) * ar - 1/2 - m/2 ≤ (pixelEdgeStepH m ar W : ℤ) := by
  unfold pixelEdgeStepH
  have h1 := le_pyround ((W : ℚ) * ar)
  have h2 := le_round_to_nearest_multiple m hm ((pyround ((W : ℚ) * ar) : ℤ) : ℚ)
  push_cast at h2 ⊢
  linarith

/-- One-step-at-a-time unfolding of the
`while min(W_adjusted, H_adjusted) < resolution` loop of
`calculate_new_size_by_pixel_edge`, entered when the guard already holds:
width is incremented by one alignment step and height re-derived, until both
adjusted dimensions meet or exceed `resolution`.  The `fuel` argument bounds
the number of iterations; `pixelEdgeFuel` below is proven sufficient whenever
the aspect ratio is positive (for a non-positive aspect ratio the Python loop
itself never terminates). -/
def pixelEdgeGo (m : ℕ) (ar resolution : ℚ) : ℕ → ℤ → ℤ × ℤ
  | 0, W => (W + m, pixelEdgeStepH m ar (W + m))
  | fuel + 1, W =>
    let W' := W + m
    let H' := pixelEdgeStepH m ar W'
    if ((min W' H' : ℤ) : ℚ) < resolution then pixelEdgeGo m ar resolution fuel W'
    else (W', H')

/-- Iteration bound for the pixel-edge loop: once `W` reaches
`max resolution ((resolution + 1/2 + m/2) / ar)` both dimensions meet
`resolution`. -/
def pixelEdgeFuel (m : ℕ) (ar resolution : ℚ) (W : ℤ) : ℕ :=
  (⌈max resolution ((resolution + 1/2 + m/2) / ar)⌉ - W).toNat

/-- The pixel-edge `while` loop, with its proven-sufficient fuel. -/
def pixelEdgeLoop (m : ℕ) (ar resolution : ℚ) (W : ℤ) : ℤ × ℤ :=
  pixelEdgeGo m ar resolution (pixelEdgeFuel m ar resolution W) W

/-- `MultiaspectImage.calculate_new_size_by_pixel_edge` (width/height part;
the returned aspect ratio is `calculate_image_aspect_ratio` of this pair).
`resolution` is the requested smaller-edge length. -/
def calculate_new_size_by_pixel_edge (m : ℕ) (ar resolution : ℚ) : ℤ × ℤ :=
  let WH : ℚ × ℚ :=
    if 1 < ar then (resolution * ar, resolution)
    else if ar < 1 then (resolution, resolution / ar)
    else (resolution, resolution)
  let W0 := round_to_nearest_multiple m WH.1
  let H0 := round_to_nearest_multiple m WH.2
  if ((min W0 H0 : ℤ) : ℚ) < resolution then pixelEdgeLoop m ar resolution W0
  else (W0, H0)

theorem pixelEdgeGo_spec (m : ℕ) (hm : 0 < m) (ar : ℚ) (har : 0 < ar)
    (resolution : ℚ) :
    ∀ (fuel : ℕ) (W : ℤ), (m:ℤ) ∣ W → pixelEdgeFuel m ar resolution W ≤ fuel →
    resolution ≤ ((pixelEdgeGo m ar resolution fuel W).1 : ℚ) ∧
    resolution ≤ ((pixelEdgeGo m ar resolution fuel W).2 : ℚ) ∧
    (m:ℤ) ∣ (pixelEdgeGo m ar resolution fuel W).1 ∧
    (m:ℤ) ∣ (pixelEdgeGo m ar resolution fuel W).2 := by
  have hm' : (0:ℚ) < m := by exact_mod_cast hm
  intro fuel
  induction fuel with
  | zero =>
    intro W hW hfuel
    have hceil : ⌈max resolution ((resolution + 1/2 + m/2) / ar)⌉ ≤ W := by
      unfold pixelEdgeFuel at hfuel
      omega
    have hB : max resolution ((resolution + 1/2 + m/2) / ar) ≤ (W:ℚ) :=
      le_trans (Int.le_ceil _) (by exact_mod_cast hceil)
    have hres : resolution ≤ (W:ℚ) := le_trans (le_max_left _ _) hB
    have hquot : (resolution + 1/2 + m/2) / ar ≤ (W:ℚ) :=
      le_trans (le_max_right _ _) hB
    have hprod : resolution + 1/2 + (m:ℚ)/2 ≤ (W:ℚ) * ar :=
      (div_le_iff₀ har).mp hquot
    have hWm : resolution ≤ ((W + (m:ℤ) : ℤ) : ℚ) := by
      push_cast
      linarith
    have hstep := pixelEdgeStepH_lower m hm ar (W + (m:ℤ))
    have hH : resolution ≤ ((pixelEdgeStepH m ar (W + (m:ℤ)) : ℤ) : ℚ) := by
      have harm : (0:ℚ) ≤ (m:ℚ) * ar := le_of_lt (mul_pos hm' har)
      push_cast at hstep
      nlinarith
    exact ⟨hWm, hH, Dvd.dvd.add hW (dvd_refl _), round_to_nearest_multiple_dvd _ _⟩
  | succ fuel ih =>
    intro W hW hfuel
    simp only [pixelEdgeGo]
    rcases lt_or_le ((min (W + (m:ℤ)) (pixelEdgeStepH m ar (W + (m:ℤ))) : ℤ) : ℚ)
        resolution with hguard | hguard
    · rw [if_pos hguard]
      apply ih (W + (m:ℤ)) (Dvd.dvd.add hW (dvd_refl _))
      have hWB : ((W + (m:ℤ) : ℤ) : ℚ) <
          max resolution ((resolution + 1/2 + m/2) / ar) := by
        rcases le_total (W + (m:ℤ)) (pixelEdgeStepH m ar (W + (m:ℤ))) with hc | hc
        · rw [min_eq_left hc] at hguard
          exact lt_of_lt_of_le hguard (le_max_left _ _)
        · rw [min_eq_right hc] at hguard
          have hlow := pixelEdgeStepH_lower m hm ar (W + (m:ℤ))
          have hprod : ((W + (m:ℤ) : ℤ) : ℚ) * ar < resolution + 1/2 + (m:ℚ)/2 := by
            push_cast at hlow hguard ⊢
            linarith
          have hdiv : ((W + (m:ℤ) : ℤ) : ℚ) < (resolution + 1/2 + (m:ℚ)/2) / ar :=
            (lt_div_iff₀ har).mpr hprod
          exact lt_of_lt_of_le hdiv (le_max_right _ _)
      have hWc : W + (m:ℤ) < ⌈max resolution ((resolution + 1/2 + m/2) / ar)⌉ :=
        Int.lt_ceil.mpr hWB
      unfold pixelEdgeFuel at hfuel ⊢
      omega
    · rw [if_neg (not_lt.mpr hguard)]
      have hge1 : ((min (W + (m:ℤ)) (pixelEdgeStepH m ar (W + (m:ℤ))) : ℤ) : ℚ) ≤
          ((W + (m:ℤ) : ℤ) : ℚ) := by
        exact_mod_cast min_le_left _ _
      have hge2 : ((min (W + (m:ℤ)) (pixelEdgeStepH m ar (W + (m:ℤ))) : ℤ) : ℚ) ≤
          ((pixelEdgeStepH m ar (W + (m:ℤ)) : ℤ) : ℚ) := by
        exact_mod_cast min_le_right _ _
      exact ⟨le_trans hguard hge1, le_trans hguard hge2,
        Dvd.dvd.add hW (dvd_refl _), round_to_nearest_multiple_dvd _ _⟩

theorem pixelEdgeAdjust_spec (m : ℕ) (hm : 0 < m) (ar : ℚ) (har : 0 < ar)
    (resolution : ℚ) (x y : ℚ) :
    let W0 := round_to_nearest_multiple m x
    let H0 := round_to_nearest_multiple m y
    let r := if ((min W0 H0 : ℤ) : ℚ) < resolution then
        pixelEdgeLoop m ar resolution W0
      else (W0, H0)
    resolution ≤ (r.1 : ℚ) ∧ resolution ≤ (r.2 : ℚ) ∧
      (m:ℤ) ∣ r.1 ∧ (m:ℤ) ∣ r.2 := by
  dsimp only
  by_cases hguard : ((min (round_to_nearest_multiple m x)
      (round_to_nearest_multiple m y) : ℤ) : ℚ) < resolution
  · rw [if_pos hguard]
    exact pixelEdgeGo_spec m hm ar har resolution _ _
      (round_to_nearest_multiple_dvd _ _) (le_refl _)
  · rw [if_neg hguard]
    push_neg at hguard
    have hge1 : ((min (round_to_nearest_multiple m x)
        (round_to_nearest_multiple m y) : ℤ) : ℚ) ≤
        ((round_to_nearest_multiple m x : ℤ) : ℚ) := by
      exact_mod_cast min_le_left _ _
    have hge2 : ((min (round_to_nearest_multiple m x)
        (round_to_nearest_multiple m y) : ℤ) : ℚ) ≤
        ((round_to_nearest_multiple m y : ℤ) : ℚ) := by
      exact_mod_cast min_le_right _ _
    exact ⟨le_trans hguard hge1, le_trans hguard hge2,
      round_to_nearest_multiple_dvd _ _, round_to_nearest_multiple_dvd _ _⟩

/-- C1: for every aspect ratio `> 0` and resolution `> 0`,
`calculate_new_size_by_pixel_edge` returns a width and height that are both
at least `resolution` and both exact multiples of the configured alignment
constant `m`. -/
theorem calculate_new_size_by_pixel_edge_meets_resolution_and_alignment
    (m : ℕ) (hm : 0 < m) (ar : ℚ) (har : 0 < ar)
    (resolution : ℚ) (_hres : 0 < resolution) :
    resolution ≤ ((calculate_new_size_by_pixel_edge m ar resolution).1 : ℚ) ∧
    resolution ≤ ((calculate_new_size_by_pixel_edge m ar resolution).2 : ℚ) ∧
    (m:ℤ) ∣ (calculate_new_size_by_pixel_edge m ar resolution).1 ∧
    (m:ℤ) ∣ (calculate_new_size_by_pixel_edge m ar resolution).2 := by
  unfold calculate_new_size_by_pixel_edge
  exact pixelEdgeAdjust_spec m hm ar har resolution _ _

/-- Witness for C1 at `m = 64`, `ar = 1`, `resolution = 64`. -/
theorem calculate_new_size_by_pixel_edge_meets_resolution_and_alignment_witness :
    (0 < 64 ∧ (0:ℚ) < 1 ∧ (0:ℚ) < 64) ∧
    ((64:ℚ) ≤ ((calculate_new_size_by_pixel_edge 64 1 64).1 : ℚ) ∧
     (64:ℚ) ≤ ((calculate_new_size_by_pixel_edge 64 1 64).2 : ℚ) ∧
     (64:ℤ) ∣ (calculate_new_size_by_pixel_edge 64 1 64).1 ∧
     (64:ℤ) ∣ (calculate_new_size_by_pixel_edge 64 1 64).2) :=
  ⟨⟨by norm_num, by norm_num, by norm_num⟩,
    calculate_new_size_by_pixel_edge_meets_resolution_and_alignment 64
      (by norm_num) 1 (by norm_num) 64 (by norm_num)⟩

/-- Body of the re-derivation of `H_adjusted` inside the `while` loop of
`calculate_new_size_by_pixel_area`:
`H_adjusted = _round_to_nearest_multiple(int(round(W_adjusted / aspect_ratio)))`. -/
def pixelAreaStepH (m : ℕ) (ar : ℚ) (W : ℤ) : ℤ :=
  round_to_nearest_multiple m ((pyround ((W : ℚ) / ar) : ℤ) : ℚ)

/-- One-step-at-a-time unfolding of the
`while W_adjusted * H_adjusted < total_pixels` loop of
`calculate_new_size_by_pixel_area`, entered when the guard already holds.
`pixelAreaFuel` below is proven sufficient whenever the aspect ratio is
positive. -/
def pixelAreaGo (m : ℕ) (ar total_pixels : ℚ) : ℕ → ℤ → ℤ × ℤ
  | 0, W => (W + m, pixelAreaStepH m ar (W + m))
  | fuel + 1, W =>
    let W' := W + m
    let H' := pixelAreaStepH m ar W'
    if ((W' * H' : ℤ) : ℚ) < total_pixels then pixelAreaGo m ar total_pixels fuel W'
    else (W', H')

/-- Iteration bound for the pixel-area loop: the re-derived height is always at
least `m`, so the pixel budget is met once `W` reaches `total_pixels / m`. -/
def pixelAreaFuel (m : ℕ) (total_pixels : ℚ) (W : ℤ) : ℕ :=
  (⌈total_pixels / m⌉ - W).toNat

/-- The pixel-area `while` loop, with its proven-sufficient fuel. -/
def pixelAreaLoop (m : ℕ) (ar total_pixels : ℚ) (W : ℤ) : ℤ × ℤ :=
  pixelAreaGo m ar total_pixels (pixelAreaFuel m total_pixels W) W

/-- `MultiaspectImage.calculate_new_size_by_pixel_area` (width/height part;
the returned aspect ratio is `calculate_image_aspect_ratio` of this pair).
`sqrtApprox` models the value computed by the floating-point expression
`x ** 0.5`; every result below holds for an arbitrary such model. -/
def calculate_new_size_by_pixel_area (sqrtApprox : ℚ → ℚ) (m : ℕ)
    (ar megapixels : ℚ) : ℤ × ℤ :=
  if ar = 1 ∧ megapixels = 1 then (1024, 1024)
  else if ar = 1 ∧ megapixels = 3/4 then (768, 768)
  else if ar = 1 ∧ megapixels = 1/2 then (512, 512)
  else
    let total_pixels : ℚ := max (megapixels * 1000000) 1000000
    let W0 := round_to_nearest_multiple m
      ((pyround (sqrtApprox (total_pixels * ar)) : ℤ) : ℚ)
    let H0 := round_to_nearest_multiple m
      ((pyround (sqrtApprox (total_pixels / ar)) : ℤ) : ℚ)
    if ((W0 * H0 : ℤ) : ℚ) < total_pixels then pixelAreaLoop m ar total_pixels W0
    else (W0, H0)

theorem pixelAreaStepH_ge_m (m : ℕ) (ar : ℚ) (W : ℤ) :
    (m:ℤ) ≤ pixelAreaStepH m ar W :=
  m_le_round_to_nearest_multiple _ _

theorem pixelAreaGo_spec (m : ℕ) (hm : 0 < m) (ar : ℚ)
    (total_pixels : ℚ) (htot : 0 < total_pixels) :
    ∀ (fuel : ℕ) (W : ℤ), (m:ℤ) ∣ W → pixelAreaFuel m total_pixels W ≤ fuel →
    total_pixels ≤ (((pixelAreaGo m ar total_pixels fuel W).1 *
      (pixelAreaGo m ar total_pixels fuel W).2 : ℤ) : ℚ) ∧
    (m:ℤ) ∣ (pixelAreaGo m ar total_pixels fuel W).1 ∧
    (m:ℤ) ∣ (pixelAreaGo m ar total_pixels fuel W).2 := by
  have hm' : (0:ℚ) < m := by exact_mod_cast hm
  intro fuel
  induction fuel with
  | zero =>
    intro W hW hfuel
    have hceil : ⌈total_pixels / m⌉ ≤ W := by
      unfold pixelAreaFuel at hfuel
      omega
    have hB : total_pixels / m ≤ (W:ℚ) :=
      le_trans (Int.le_ceil _) (by exact_mod_cast hceil)
    have hWm : total_pixels ≤ (W:ℚ) * m := (div_le_iff₀ hm').mp hB
    have hWpos : (0:ℚ) < (W:ℚ) := lt_of_lt_of_le (div_pos htot hm') hB
    have hH := pixelAreaStepH_ge_m m ar (W + (m:ℤ))
    have hH' : (m:ℚ) ≤ ((pixelAreaStepH m ar (W + (m:ℤ)) : ℤ) : ℚ) := by
      exact_mod_cast hH
    have hge : total_pixels ≤
        ((W + (m:ℤ) : ℤ) : ℚ) * ((pixelAreaStepH m ar (W + (m:ℤ)) : ℤ) : ℚ) := by
      have h1 : ((W + (m:ℤ) : ℤ) : ℚ) * (m:ℚ) ≤
          ((W + (m:ℤ) : ℤ) : ℚ) * ((pixelAreaStepH m ar (W + (m:ℤ)) : ℤ) : ℚ) := by
        apply mul_le_mul_of_nonneg_left hH'
        push_cast
        linarith
      have h2 : total_pixels ≤ ((W + (m:ℤ) : ℤ) : ℚ) * (m:ℚ) := by
        push_cast
        nlinarith
      linarith
    refine ⟨?_, Dvd.dvd.add hW (dvd_refl _), round_to_nearest_multiple_dvd _ _⟩
    show total_pixels ≤ (((W + (m:ℤ)) * pixelAreaStepH m ar (W + (m:ℤ)) : ℤ) : ℚ)
    push_cast at hge ⊢
    exact hge
  | succ fuel ih =>
    intro W hW hfuel
    simp only [pixelAreaGo]
    rcases lt_or_le (((W + (m:ℤ)) * pixelAreaStepH m ar (W + (m:ℤ)) : ℤ) : ℚ)
        total_pixels with hguard | hguard
    · rw [if_pos hguard]
      apply ih (W + (m:ℤ)) (Dvd.dvd.add hW (dvd_refl _))
      have hWB : ((W + (m:ℤ) : ℤ) : ℚ) < total_pixels / m := by
        rcases le_or_lt ((W + (m:ℤ) : ℤ) : ℚ) 0 with hle | hpos
        · exact lt_of_le_of_lt hle (div_pos htot hm')
        · have hH' : (m:ℚ) ≤ ((pixelAreaStepH m ar (W + (m:ℤ)) : ℤ) : ℚ) := by
            exact_mod_cast pixelAreaStepH_ge_m m ar (W + (m:ℤ))
          have h1 : ((W + (m:ℤ) : ℤ) : ℚ) * (m:ℚ) ≤
              ((W + (m:ℤ) : ℤ) : ℚ) * ((pixelAreaStepH m ar (W + (m:ℤ)) : ℤ) : ℚ) :=
            mul_le_mul_of_nonneg_left hH' (le_of_lt hpos)
          have h2 : ((W + (m:ℤ) : ℤ) : ℚ) *
              ((pixelAreaStepH m ar (W + (m:ℤ)) : ℤ) : ℚ) < total_pixels := by
            push_cast at hguard ⊢
            exact hguard
          rw [lt_div_iff₀ hm']
          linarith
      have hWc : W + (m:ℤ) < ⌈total_pixels / m⌉ := Int.lt_ceil.mpr hWB
      unfold pixelAreaFuel at hfuel ⊢
      omega
    · rw [if_neg (not_lt.mpr hguard)]
      exact ⟨hguard, Dvd.dvd.add hW (dvd_refl _), round_to_nearest_multiple_dvd _ _⟩

/-- C6: outside the three square special cases, for every aspect ratio `> 0`
and every megapixel budget, `calculate_new_size_by_pixel_area` returns a width
and height that are exact multiples of the alignment constant and whose product
is at least `max (megapixels * 1e6) 1e6` pixels, for any model of the
floating-point square root. -/
theorem calculate_new_size_by_pixel_area_meets_budget_and_alignment
    (sqrtApprox : ℚ → ℚ) (m : ℕ) (hm : 0 < m) (ar megapixels : ℚ)
    (_har : 0 < ar)
    (hsp1 : ¬(ar = 1 ∧ megapixels = 1))
    (hsp2 : ¬(ar = 1 ∧ megapixels = 3/4))
    (hsp3 : ¬(ar = 1 ∧ megapixels = 1/2)) :
    max (megapixels * 1000000) 1000000 ≤
      (((calculate_new_size_by_pixel_area sqrtApprox m ar megapixels).1 *
        (calculate_new_size_by_pixel_area sqrtApprox m ar megapixels).2 : ℤ) : ℚ) ∧
    (m:ℤ) ∣ (calculate_new_size_by_pixel_area sqrtApprox m ar megapixels).1 ∧
    (m:ℤ) ∣ (calculate_new_size_by_pixel_area sqrtApprox m ar megapixels).2 := by
  have htot : (0:ℚ) < max (megapixels * 1000000) 1000000 :=
    lt_of_lt_of_le (by norm_num) (le_max_right _ _)
  unfold calculate_new_size_by_pixel_area
  rw [if_neg hsp1, if_neg hsp2, if_neg hsp3]
  dsimp only
  by_cases hguard : (((round_to_nearest_multiple m
        ((pyround (sqrtApprox (max (megapixels * 1000000) 1000000 * ar)) : ℤ) : ℚ)) *
      (round_to_nearest_multiple m
        ((pyround (sqrtApprox (max (megapixels * 1000000) 1000000 / ar)) : ℤ) : ℚ)) :
      ℤ) : ℚ) < max (megapixels * 1000000) 1000000
  · rw [if_pos hguard]
    exact pixelAreaGo_spec m hm ar _ htot _ _
      (round_to_nearest_multiple_dvd _ _) (le_refl _)
  · rw [if_neg hguard]
    push_neg at hguard
    exact ⟨hguard, round_to_nearest_multiple_dvd _ _, round_to_nearest_multiple_dvd _ _⟩

/-- Witness for C6 at `sqrtApprox = id`, `m = 64`, `ar = 2`, `megapixels = 1`. -/
theorem calculate_new_size_by_pixel_area_meets_budget_and_alignment_witness :
    (0 < 64 ∧ (0:ℚ) < 2 ∧ ¬((2:ℚ) = 1 ∧ (1:ℚ) = 1) ∧
      ¬((2:ℚ) = 1 ∧ (1:ℚ) = 3/4) ∧ ¬((2:ℚ) = 1 ∧ (1:ℚ) = 1/2)) ∧
    (max ((1:ℚ) * 1000000) 1000000 ≤
      (((calculate_new_size_by_pixel_area (fun q => q) 64 2 1).1 *
        (calculate_new_size_by_pixel_area (fun q => q) 64 2 1).2 : ℤ) : ℚ) ∧
     (64:ℤ) ∣ (calculate_new_size_by_pixel_area (fun q => q) 64 2 1).1 ∧
     (64:ℤ) ∣ (calculate_new_size_by_pixel_area (fun q => q) 64 2 1).2) :=
  ⟨⟨by norm_num, by norm_num, by norm_num, by norm_num, by norm_num⟩,
    calculate_new_size_by_pixel_area_meets_budget_and_alignment (fun q => q) 64
      (by norm_num) 2 1 (by norm_num) (by norm_num) (by norm_num) (by norm_num)⟩

/-- Size-level model of the staged-reduction `while` loop of
`MultiaspectImage._resize_image`: while either current dimension exceeds
1.5x its target (`current > target * 1.5`, i.e. `3 * target < 2 * current`
exactly on integers), both dimensions are shrunk to
`int(current * 0.75) = 3 * current / 4` and clamped below by the target.
Returns the final current size together with the trace of intermediate
sizes produced.  `resizeFuel` below is proven sufficient. -/
def resizeGo (tw th : ℕ) : ℕ → ℕ → ℕ → (ℕ × ℕ) × List (ℕ × ℕ)
  | 0, cw, ch => ((cw, ch), [])
  | fuel + 1, cw, ch =>
    if 3 * tw < 2 * cw ∨ 3 * th < 2 * ch then
      let iw := max (3 * cw / 4) tw
      let ih := max (3 * ch / 4) th
      let r := resizeGo tw th fuel iw ih
      (r.1, (iw, ih) :: r.2)
    else ((cw, ch), [])

/-- Iteration bound for the staged-reduction loop. -/
def resizeFuel (tw th cw ch : ℕ) : ℕ :=
  max cw tw + max ch th

theorem resizeGo_measure_decreases (tw th cw ch : ℕ)
    (hguard : 3 * tw < 2 * cw ∨ 3 * th < 2 * ch) :
    max (max (3 * cw / 4) tw) tw + max (max (3 * ch / 4) th) th <
      max cw tw + max ch th := by
  simp only [Nat.max_def]
  split_ifs <;> omega

/-- With sufficient fuel, the staged-reduction loop exits only when neither
current dimension exceeds 1.5x its target (i.e. the model's fuel bound is
never the reason the loop stops). -/
theorem resizeGo_exits (tw th : ℕ) :
    ∀ (fuel cw ch : ℕ), resizeFuel tw th cw ch ≤ fuel →
    ¬(3 * tw < 2 * (resizeGo tw th fuel cw ch).1.1 ∨
      3 * th < 2 * (resizeGo tw th fuel cw ch).1.2) := by
  intro fuel
  induction fuel with
  | zero =>
    intro cw ch hfuel
    unfold resizeFuel at hfuel
    simp only [resizeGo]
    simp only [Nat.max_def] at hfuel
    split_ifs at hfuel <;> omega
  | succ fuel ih =>
    intro cw ch hfuel
    simp only [resizeGo]
    by_cases hguard : 3 * tw < 2 * cw ∨ 3 * th < 2 * ch
    · rw [if_pos hguard]
      apply ih
      have := resizeGo_measure_decreases tw th cw ch hguard
      unfold resizeFuel at hfuel ⊢
      omega
    · rw [if_neg hguard]
      exact hguard

theorem resizeGo_trace_clamped (tw th : ℕ) :
    ∀ (fuel cw ch : ℕ), ∀ p ∈ (resizeGo tw th fuel cw ch).2,
      tw ≤ p.1 ∧ th ≤ p.2 := by
  intro fuel
  induction fuel with
  | zero =>
    intro cw ch p hp
    simp only [resizeGo, List.not_mem_nil] at hp
  | succ fuel ih =>
    intro cw ch p hp
    simp only [resizeGo] at hp
    by_cases hguard : 3 * tw < 2 * cw ∨ 3 * th < 2 * ch
    · rw [if_pos hguard] at hp
      rcases List.mem_cons.mp hp with hhead | htail
      · subst hhead
        exact ⟨le_max_right _ _, le_max_right _ _⟩
      · exact ih _ _ p htail
    · rw [if_neg hguard] at hp
      simp at hp

/-- Size-level model of `MultiaspectImage._resize_image`: the recorded size of
the output together with the trace of intermediate sizes.  If the current size
already equals the target size the input is returned unchanged with no
intermediate stages; otherwise the staged-reduction loop runs and a final
exact resize to `(tw, th)` is performed. -/
def resize_image (tw th cw ch : ℕ) : (ℕ × ℕ) × List (ℕ × ℕ) :=
  if (tw, th) = (cw, ch) then ((cw, ch), [])
  else ((tw, th), (resizeGo tw th (resizeFuel tw th cw ch) cw ch).2)

/-- C9: `_resize_image` always records exactly the target size; when the
current size already equals the target it is a no-op with no intermediate
stages; and every intermediate size of the staged-reduction loop is clamped so
that neither dimension falls below its target. -/
theorem resize_image_spec (tw th cw ch : ℕ) :
    (resize_image tw th cw ch).1 = (tw, th) ∧
    ((tw, th) = (cw, ch) → resize_image tw th cw ch = ((cw, ch), [])) ∧
    (∀ p ∈ (resize_image tw th cw ch).2, tw ≤ p.1 ∧ th ≤ p.2) := by
  refine ⟨?_, ?_, ?_⟩
  · unfold resize_image
    split
    · rename_i h
      exact h.symm
    · rfl
  · intro h
    unfold resize_image
    rw [if_pos h]
  · intro p hp
    unfold resize_image at hp
    split at hp
    · simp at hp
    · exact resizeGo_trace_clamped tw th _ _ _ p hp

/-- Witness for C9 at target `(4, 4)`, current `(16, 16)` (the loop stages
through `(12, 12)`, `(9, 9)`, `(6, 6)`). -/
theorem resize_image_spec_witness :
    (resize_image 4 4 16 16).1 = (4, 4) ∧
    ((4, 4) = (16, 16) → resize_image 4 4 16 16 = ((16, 16), [])) ∧
    (∀ p ∈ (resize_image 4 4 16 16).2, 4 ≤ p.1 ∧ 4 ≤ p.2) :=
  resize_image_spec 4 4 16 16

/-- Size-derivation prefix of `MultiaspectImage.prepare_image`
(lines 43-61): `image_size` is assigned from `image.size` when a pixel image
is present, else from `image_metadata["original_size"]` when metadata is
present; when both are absent the local variable `image_size` is never
assigned and the subsequent unpacking raises `UnboundLocalError` (modelled as
`none`). -/
def prepare_image_size (image : Option (ℤ × ℤ))
    (image_metadata : Option (ℤ × ℤ)) : Option (ℤ × ℤ) :=
  match image with
  | some sz => some sz
  | none =>
    match image_metadata with
    | some sz => some sz
    | none => none

/-- C10: `prepare_image` implicitly requires at least one of pixel image or
size metadata: with both absent the size derivation fails (an unhandled
`UnboundLocalError` rather than a clean configuration error), while whenever
at least one is present the size is always derived. -/
theorem prepare_image_size_requires_input :
    prepare_image_size none none = none ∧
    ∀ (im md : Option (ℤ × ℤ)), (im.isSome ∨ md.isSome) →
      (prepare_image_size im md).isSome := by
  refine ⟨rfl, ?_⟩
  intro im md h
  match im, md with
  | some sz, _ => rfl
  | none, some sz => rfl
  | none, none => simp at h

/-- Witness for C10 at a present pixel image of size `(4, 2)`. -/
theorem prepare_image_size_requires_input_witness :
    ((some ((4:ℤ), (2:ℤ))).isSome ∨ (none : Option (ℤ × ℤ)).isSome) ∧
    (prepare_image_size (some ((4:ℤ), (2:ℤ))) none).isSome :=
  ⟨Or.inl rfl, prepare_image_size_requires_input.2 (some (4, 2)) none (Or.inl rfl)⟩

/-! ## Bucket index store (`helpers/legacy/dreambooth_dataset.py`)

A Python `dict` keyed by aspect-ratio strings is modelled as an
insertion-ordered association list with unique keys: assignment to an existing
key replaces its value in place, assignment to a fresh key appends it. -/

/-- `aspect_ratio_bucket_indices`: rounded-aspect-ratio key to list of file
paths. -/
abbrev BucketIndex := List (String × List String)

/-- `d[k]` lookup (`none` models `KeyError` / `k not in d`). -/
def dictGet : BucketIndex → String → Option (List String)
  | [], _ => none
  | (k', v) :: rest, k => if k' = k then some v else dictGet rest k

/-- `d[k] = v` assignment with Python `dict` semantics. -/
def dictSet : BucketIndex → String → List String → BucketIndex
  | [], k, v => [(k, v)]
  | (k', v') :: rest, k, v =>
    if k' = k then (k, v) :: rest else (k', v') :: dictSet rest k v

def dictKeys (d : BucketIndex) : List String := d.map Prod.fst

/-- `d.update(other)`: each key of `other` is assigned into `d`, replacing the
whole value list of any key both mappings share. -/
def dictUpdate (d other : BucketIndex) : BucketIndex :=
  other.foldl (fun acc kv => dictSet acc kv.1 kv.2) d

/-- `set().union(*aspect_ratio_bucket_indices.values())`: the known-file
exclusion set, as the multiset of all filenames stored in any bucket. -/
def knownFiles (d : BucketIndex) : List String := (d.map Prod.snd).flatten

/-- File `f` is recorded under bucket key `k`. -/
def inBucket (d : BucketIndex) (k f : String) : Prop :=
  f ∈ (dictGet d k).getD []

/-- `DreamBoothDataset._process_image`: `decode` models
`Image.open` + `exif_transpose` + `round(width / height, 2)` as the rounded
aspect-ratio key `str(aspect_ratio)`, returning `none` when any of those steps
raises.  On success the path is appended to its bucket (created if missing);
on failure the error is logged and the mapping is returned unchanged. -/
def process_image (decode : String → Option String) (path : String)
    (d : BucketIndex) : BucketIndex :=
  match decode path with
  | none => d
  | some key => dictSet d key ((dictGet d key).getD [] ++ [path])

/-- `DreamBoothDataset._bucket_worker` over one shard: files in the
known-files exclusion set are skipped (progress only); every other file is
processed and the worker's whole accumulated local mapping is emitted to the
results queue (also after a per-file decode failure).  Returns the final local
mapping and the emitted messages in order. -/
def bucket_worker (decode : String → Option String) (known : List String) :
    List String → BucketIndex → BucketIndex × List BucketIndex
  | [], d => (d, [])
  | f :: rest, d =>
    if f ∈ known then bucket_worker decode known rest d
    else
      let d' := process_image decode f d
      let r := bucket_worker decode known rest d'
      (r.1, d' :: r.2)

/-- `DreamBoothDataset.compute_aspect_ratio_bucket_indices`: each worker is
forked with a copy of the parent's `aspect_ratio_bucket_indices` (`base`) and
the known-files set is computed once up front; the coordinator merges every
emitted partial mapping into the authoritative index with `dict.update`.  The
message arrival order is modelled by the admissible schedule in which worker
`i`'s messages are drained before worker `i+1`'s. -/
def compute_aspect_ratio_bucket_indices (decode : String → Option String)
    (base : BucketIndex) (shards : List (List String)) : BucketIndex :=
  let known := knownFiles base
  let msgs := (shards.map (fun files => (bucket_worker decode known files base).2)).flatten
  msgs.foldl dictUpdate base

theorem dictGet_set_eq (d : BucketIndex) (k : String) (v : List String) :
    dictGet (dictSet d k v) k = some v := by
  induction d with
  | nil => simp [dictSet, dictGet]
  | cons kv rest ih =>
    obtain ⟨k', v'⟩ := kv
    by_cases h : k' = k
    · simp [dictSet, dictGet, h]
    · simp [dictSet, dictGet, h, ih]

theorem dictGet_set_ne (d : BucketIndex) (k k' : String) (v : List String)
    (h : k' ≠ k) : dictGet (dictSet d k v) k' = dictGet d k' := by
  induction d with
  | nil => simp [dictSet, dictGet, Ne.symm h]
  | cons kv rest ih =>
    obtain ⟨k₀, v₀⟩ := kv
    by_cases h0 : k₀ = k
    · subst h0
      simp [dictSet, dictGet, Ne.symm h]
    · by_cases h1 : k₀ = k'
      · subst h1
        simp [dictSet, dictGet, h, h0]
      · simp [dictSet, dictGet, h0, h1, ih]

theorem dictKeys_set (d : BucketIndex) (k : String) (v : List String) :
    dictKeys (dictSet d k v) = if k ∈ dictKeys d then dictKeys d else dictKeys d ++ [k] := by
  induction d with
  | nil => simp [dictSet, dictKeys]
  | cons kv rest ih =>
    obtain ⟨k₀, v₀⟩ := kv
    by_cases h0 : k₀ = k
    · subst h0
      simp [dictSet, dictKeys]
    · simp only [dictSet, if_neg h0, dictKeys, List.map_cons]
      simp only [dictKeys] at ih
      rw [ih]
      by_cases hk : k ∈ List.map Prod.fst rest
      · simp [hk, Ne.symm h0]
      · simp [hk, Ne.symm h0]

theorem dictKeys_set_nodup (d : BucketIndex) (k : String) (v : List String)
    (h : (dictKeys d).Nodup) : (dictKeys (dictSet d k v)).Nodup := by
  rw [dictKeys_set]
  split
  · exact h
  · rename_i hk
    simp [List.nodup_append, h, hk]

theorem dictGet_eq_none_of_not_mem (d : BucketIndex) (k : String)
    (h : k ∉ dictKeys d) : dictGet d k = none := by
  induction d with
  | nil => rfl
  | cons kv rest ih =>
    obtain ⟨k₀, v₀⟩ := kv
    simp only [dictKeys, List.map_cons, List.mem_cons] at h
    push_neg at h
    simp only [dictGet, if_neg (Ne.symm h.1)]
    exact ih (by simpa [dictKeys] using h.2)

theorem mem_of_dictGet_eq_some (d : BucketIndex) (k : String) (v : List String)
    (h : dictGet d k = some v) : (k, v) ∈ d := by
  induction d with
  | nil => simp [dictGet] at h
  | cons kv rest ih =>
    obtain ⟨k₀, v₀⟩ := kv
    by_cases h0 : k₀ = k
    · subst h0
      simp only [dictGet, if_true, eq_self_iff_true, Option.some_inj] at h
      subst h
      exact List.mem_cons_self _ _
    · simp only [dictGet, if_neg h0] at h
      exact List.mem_cons_of_mem _ (ih h)

theorem dictGet_eq_some_of_mem_nodup (d : BucketIndex) (k : String)
    (v : List String) (hnd : (dictKeys d).Nodup) (h : (k, v) ∈ d) :
    dictGet d k = some v := by
  induction d with
  | nil => simp at h
  | cons kv rest ih =>
    obtain ⟨k₀, v₀⟩ := kv
    simp only [dictKeys, List.map_cons, List.nodup_cons] at hnd
    rcases List.mem_cons.mp h with heq | htail
    · obtain ⟨hk, hv⟩ := Prod.mk.injEq .. ▸ heq
      subst hk
      subst hv
      simp [dictGet]
    · have hk : k₀ ≠ k := by
        intro hc
        subst hc
        exact hnd.1 (List.mem_map.mpr ⟨(k₀, v), htail, rfl⟩)
      simp only [dictGet, if_neg hk]
      exact ih (by simpa [dictKeys] using hnd.2) htail

theorem dictGet_update_of_none (c m : BucketIndex) (k : String)
    (h : dictGet m k = none) : dictGet (dictUpdate c m) k = dictGet c k := by
  induction m generalizing c with
  | nil => rfl
  | cons kv rest ih =>
    obtain ⟨k₀, v₀⟩ := kv
    by_cases h0 : k₀ = k
    · subst h0
      simp [dictGet] at h
    · simp only [dictGet, if_neg h0] at h
      show dictGet (dictUpdate (dictSet c k₀ v₀) rest) k = dictGet c k
      rw [ih _ h, dictGet_set_ne _ _ _ _ (fun hc => h0 hc.symm)]

theorem dictGet_update_of_some (c m : BucketIndex) (k : String)
    (v : List String) (hnd : (dictKeys m).Nodup) (h : dictGet m k = some v) :
    dictGet (dictUpdate c m) k = some v := by
  induction m generalizing c with
  | nil => simp [dictGet] at h
  | cons kv rest ih =>
    obtain ⟨k₀, v₀⟩ := kv
    simp only [dictKeys, List.map_cons, List.nodup_cons] at hnd
    show dictGet (dictUpdate (dictSet c k₀ v₀) rest) k = some v
    by_cases h0 : k₀ = k
    · subst h0
      simp only [dictGet, if_true, eq_self_iff_true, Option.some_inj] at h
      subst h
      have hrest : dictGet rest k₀ = none := by
        apply dictGet_eq_none_of_not_mem
        simpa [dictKeys] using hnd.1
      rw [dictGet_update_of_none _ _ _ hrest, dictGet_set_eq]
    · simp only [dictGet, if_neg h0] at h
      exact ih (dictSet c k₀ v₀) (by simpa [dictKeys] using hnd.2) h

theorem dictKeys_update_nodup (c m : BucketIndex)
    (h : (dictKeys c).Nodup) : (dictKeys (dictUpdate c m)).Nodup := by
  induction m generalizing c with
  | nil => exact h
  | cons kv rest ih =>
    obtain ⟨k₀, v₀⟩ := kv
    exact ih _ (dictKeys_set_nodup _ _ _ h)

theorem inBucket_update_of_inBucket (c m : BucketIndex) (k f : String)
    (hnd : (dictKeys m).Nodup) (h : inBucket m k f) :
    inBucket (dictUpdate c m) k f := by
  unfold inBucket at h ⊢
  cases hm : dictGet m k with
  | none => rw [hm] at h; simp at h
  | some v =>
    rw [hm] at h
    rw [dictGet_update_of_some _ _ _ _ hnd hm]
    exact h

theorem inBucket_process_preserved (decode : String → Option String)
    (g : String) (d : BucketIndex) (k f : String) (h : inBucket d k f) :
    inBucket (process_image decode g d) k f := by
  unfold process_image
  cases hdec : decode g with
  | none => exact h
  | some key =>
    unfold inBucket at h ⊢
    by_cases hk : key = k
    · subst hk
      rw [dictGet_set_eq]
      cases hget : dictGet d key with
      | none => rw [hget] at h; simp at h
      | some v =>
        rw [hget] at h
        simp only [hget, Option.getD_some]
        exact List.mem_append_left _ h
    · rw [dictGet_set_ne _ _ _ _ (fun hc => hk hc.symm)]
      exact h

theorem inBucket_process_self (decode : String → Option String)
    (f : String) (d : BucketIndex) (k : String) (hdec : decode f = some k) :
    inBucket (process_image decode f d) k f := by
  unfold process_image inBucket
  rw [hdec, dictGet_set_eq]
  simp

theorem dictKeys_process_nodup (decode : String → Option String)
    (f : String) (d : BucketIndex) (h : (dictKeys d).Nodup) :
    (dictKeys (process_image decode f d)).Nodup := by
  unfold process_image
  cases decode f with
  | none => exact h
  | some key => exact dictKeys_set_nodup _ _ _ h

/-- Coordinator invariant for one worker's message stream: folding
`dict.update` over the messages of `bucket_worker` preserves the presence of
`f` under key `k`; a file still to be processed (and not excluded) ends up
present as well. -/
theorem coordinator_worker_invariant (decode : String → Option String)
    (known : List String) (k f : String) (hdec : decode f = some k) :
    ∀ (files : List String) (d c : BucketIndex), (dictKeys d).Nodup →
    ((f ∈ files ∧ f ∉ known) ∨ (inBucket d k f ∧ inBucket c k f)) →
    inBucket (((bucket_worker decode known files d).2).foldl dictUpdate c) k f := by
  intro files
  induction files with
  | nil =>
    intro d c _ h
    rcases h with ⟨hmem, _⟩ | ⟨_, hc⟩
    · simp at hmem
    · exact hc
  | cons g rest ih =>
    intro d c hnd h
    by_cases hg : g ∈ known
    · simp only [bucket_worker, if_pos hg]
      apply ih d c hnd
      rcases h with ⟨hmem, hnew⟩ | hB
      · left
        refine ⟨?_, hnew⟩
        rcases List.mem_cons.mp hmem with rfl | hrest
        · exact absurd hg hnew
        · exact hrest
      · right
        exact hB
    · simp only [bucket_worker, if_neg hg]
      have hnd' : (dictKeys (process_image decode g d)).Nodup :=
        dictKeys_process_nodup decode g d hnd
      apply ih (process_image decode g d) (dictUpdate c (process_image decode g d)) hnd'
      rcases h with ⟨hmem, hnew⟩ | ⟨hd, _⟩
      · rcases List.mem_cons.mp hmem with rfl | hrest
        · right
          have hd' : inBucket (process_image decode f d) k f :=
            inBucket_process_self decode f d k hdec
          exact ⟨hd', inBucket_update_of_inBucket _ _ _ _ hnd' hd'⟩
        · left
          exact ⟨hrest, hnew⟩
      · right
        have hd' : inBucket (process_image decode g d) k f :=
          inBucket_process_preserved decode g d k f hd
        exact ⟨hd', inBucket_update_of_inBucket _ _ _ _ hnd' hd'⟩

theorem mem_knownFiles_iff (d : BucketIndex) (f : String) :
    f ∈ knownFiles d ↔ ∃ kv ∈ d, f ∈ kv.2 := by
  unfold knownFiles
  simp only [List.mem_flatten, List.mem_map]
  constructor
  · rintro ⟨l, ⟨kv, hkv, rfl⟩, hf⟩
    exact ⟨kv, hkv, hf⟩
  · rintro ⟨kv, hkv, hf⟩
    exact ⟨kv.2, ⟨kv, hkv, rfl⟩, hf⟩

theorem mem_knownFiles_of_inBucket (d : BucketIndex) (k f : String)
    (h : inBucket d k f) : f ∈ knownFiles d := by
  unfold inBucket at h
  cases hget : dictGet d k with
  | none => rw [hget] at h; simp at h
  | some v =>
    rw [hget] at h
    simp only [Option.getD_some] at h
    exact (mem_knownFiles_iff d f).mpr ⟨(k, v), mem_of_dictGet_eq_some d k v hget, h⟩

theorem inBucket_of_mem_knownFiles (d : BucketIndex) (f : String)
    (hnd : (dictKeys d).Nodup) (h : f ∈ knownFiles d) :
    ∃ k, inBucket d k f := by
  obtain ⟨kv, hkv, hf⟩ := (mem_knownFiles_iff d f).mp h
  refine ⟨kv.1, ?_⟩
  unfold inBucket
  rw [dictGet_eq_some_of_mem_nodup d kv.1 kv.2 hnd hkv]
  exact hf

/-- Counterexample for C3 as stated: with two workers whose shards map to the
same rounded aspect-ratio key, file `fA` is processed without a decode error
by the first worker, yet `dict.update` replaces the whole `"1.0"` entry with
the second worker's list and `fA` is absent from the returned mapping. -/
theorem compute_multi_worker_drops_processed_file :
    ((fun (_ : String) => some "1.0") "fA" = some "1.0") ∧
    ("fA" ∉ knownFiles ([] : BucketIndex)) ∧
    compute_aspect_ratio_bucket_indices (fun _ => some "1.0") []
      [["fA"], ["fB"]] = [("1.0", ["fB"])] ∧
    "fA" ∉ knownFiles (compute_aspect_ratio_bucket_indices (fun _ => some "1.0")
      [] [["fA"], ["fB"]]) := by
  refine ⟨rfl, by simp [knownFiles], rfl, ?_⟩
  show "fA" ∉ knownFiles [("1.0", ["fB"])]
  simp [knownFiles]

/-- C3 (amended): with a single worker, every candidate file processed without
a decode error appears in the returned mapping under its rounded
aspect-ratio key; with several workers, `dict.update` replaces whole per-key
lists, so entries contributed by a different worker under the same key can be
lost (see the counterexample). -/
theorem compute_single_worker_complete
    (decode : String → Option String) (base : BucketIndex)
    (files : List String) (f k : String) (hnd : (dictKeys base).Nodup)
    (hdec : decode f = some k) (hmem : f ∈ files)
    (hnew : f ∉ knownFiles base) :
    inBucket (compute_aspect_ratio_bucket_indices decode base [files]) k f := by
  unfold compute_aspect_ratio_bucket_indices
  simp only [List.map_cons, List.map_nil, List.flatten_cons, List.flatten_nil,
    List.append_nil]
  exact coordinator_worker_invariant decode (knownFiles base) k f hdec files
    base base hnd (Or.inl ⟨hmem, hnew⟩)

/-- Witness for the amended C3 at one worker processing `["fA"]` from an
empty base index. -/
theorem compute_single_worker_complete_witness :
    ((dictKeys ([] : BucketIndex)).Nodup ∧
      (fun (_ : String) => some "1.0") "fA" = some "1.0" ∧
      "fA" ∈ ["fA"] ∧ "fA" ∉ knownFiles ([] : BucketIndex)) ∧
    inBucket (compute_aspect_ratio_bucket_indices (fun _ => some "1.0") []
      [["fA"]]) "1.0" "fA" :=
  ⟨⟨List.nodup_nil, rfl, List.mem_singleton.mpr rfl, by simp [knownFiles]⟩,
    compute_single_worker_complete (fun _ => some "1.0") [] ["fA"] "fA" "1.0"
      List.nodup_nil rfl (List.mem_singleton.mpr rfl) (by simp [knownFiles])⟩

/-- C8: a per-file decode failure in `_process_image` is recovered locally:
the bucket mapping is returned unchanged (the failing file is not added), no
exception propagates, and `_bucket_worker` goes on to process the remaining
files of its shard exactly as it would have without the failing file (while
still emitting a progress update and its unchanged local mapping). -/
theorem process_image_decode_failure_recovered
    (decode : String → Option String) (path : String) (d : BucketIndex)
    (known : List String) (rest : List String) (hdec : decode path = none) :
    process_image decode path d = d ∧
    (path ∉ known →
      bucket_worker decode known (path :: rest) d =
        ((bucket_worker decode known rest d).1,
          d :: (bucket_worker decode known rest d).2)) := by
  have h1 : process_image decode path d = d := by
    unfold process_image
    rw [hdec]
  refine ⟨h1, fun hk => ?_⟩
  simp only [bucket_worker, if_neg hk, h1]

/-- Witness for C8: a failing decode on `corrupt.png` leaves the mapping
unchanged and the rest of the shard is still processed. -/
theorem process_image_decode_failure_recovered_witness :
    ((fun (_ : String) => (none : Option String)) "corrupt.png" = none) ∧
    (process_image (fun _ => none) "corrupt.png" [("1.0", ["ok.png"])] =
      [("1.0", ["ok.png"])] ∧
    ("corrupt.png" ∉ ([] : List String) →
      bucket_worker (fun _ => none) [] ["corrupt.png", "next.png"]
          [("1.0", ["ok.png"])] =
        ((bucket_worker (fun _ => none) [] ["next.png"]
            [("1.0", ["ok.png"])]).1,
          [("1.0", ["ok.png"])] ::
            (bucket_worker (fun _ => none) [] ["next.png"]
              [("1.0", ["ok.png"])]).2))) :=
  ⟨rfl, process_image_decode_failure_recovered (fun _ => none) "corrupt.png"
    [("1.0", ["ok.png"])] [] ["next.png"] rfl⟩

theorem process_image_none (decode : String → Option String) (path : String)
    (d : BucketIndex) (h : decode path = none) :
    process_image decode path d = d := by
  unfold process_image
  rw [h]

theorem dictSet_eq_of_get (d : BucketIndex) (k : String) (v : List String)
    (h : dictGet d k = some v) : dictSet d k v = d := by
  induction d with
  | nil => simp [dictGet] at h
  | cons kv rest ih =>
    obtain ⟨k₀, v₀⟩ := kv
    by_cases h0 : k₀ = k
    · subst h0
      simp only [dictGet, if_true, eq_self_iff_true, Option.some_inj] at h
      subst h
      simp [dictSet]
    · simp only [dictGet, if_neg h0] at h
      simp [dictSet, h0, ih h]

theorem foldl_dictSet_id (q : List (String × List String)) (d : BucketIndex)
    (h : ∀ kv ∈ q, dictGet d kv.1 = some kv.2) :
    q.foldl (fun acc kv => dictSet acc kv.1 kv.2) d = d := by
  induction q with
  | nil => rfl
  | cons kv rest ih =>
    simp only [List.foldl_cons]
    rw [dictSet_eq_of_get d kv.1 kv.2 (h kv (List.mem_cons_self _ _))]
    exact ih (fun kv' h' => h kv' (List.mem_cons_of_mem _ h'))

theorem dictUpdate_self (d : BucketIndex) (hnd : (dictKeys d).Nodup) :
    dictUpdate d d = d :=
  foldl_dictSet_id d d (fun kv h =>
    dictGet_eq_some_of_mem_nodup d kv.1 kv.2 hnd h)

theorem foldl_dictUpdate_id (msgs : List BucketIndex) (d : BucketIndex)
    (hnd : (dictKeys d).Nodup) (h : ∀ m ∈ msgs, m = d) :
    msgs.foldl dictUpdate d = d := by
  induction msgs with
  | nil => rfl
  | cons m rest ih =>
    have hm : m = d := h m (List.mem_cons_self _ _)
    subst hm
    simp only [List.foldl_cons]
    rw [dictUpdate_self m hnd]
    exact ih (fun m' h' => h m' (List.mem_cons_of_mem _ h'))

theorem foldl_dictUpdate_nodup (msgs : List BucketIndex) :
    ∀ (c : BucketIndex), (dictKeys c).Nodup →
    (dictKeys (msgs.foldl dictUpdate c)).Nodup := by
  induction msgs with
  | nil => exact fun c h => h
  | cons m rest ih =>
    intro c h
    exact ih _ (dictKeys_update_nodup c m h)

/-- Preservation-only variant of the coordinator invariant: once a file is
present under a key in both the worker's local mapping and the coordinator's
index, it stays present after the worker's remaining messages are merged. -/
theorem coordinator_worker_preserves (decode : String → Option String)
    (known : List String) (k f : String) :
    ∀ (files : List String) (d c : BucketIndex), (dictKeys d).Nodup →
    inBucket d k f → inBucket c k f →
    inBucket (((bucket_worker decode known files d).2).foldl dictUpdate c) k f := by
  intro files
  induction files with
  | nil =>
    intro d c _ _ hc
    exact hc
  | cons g rest ih =>
    intro d c hnd hd hc
    by_cases hg : g ∈ known
    · simp only [bucket_worker, if_pos hg]
      exact ih d c hnd hd hc
    · simp only [bucket_worker, if_neg hg]
      have hnd' : (dictKeys (process_image decode g d)).Nodup :=
        dictKeys_process_nodup decode g d hnd
      have hd' : inBucket (process_image decode g d) k f :=
        inBucket_process_preserved decode g d k f hd
      exact ih (process_image decode g d) _ hnd' hd'
        (inBucket_update_of_inBucket _ _ _ _ hnd' hd')

theorem bucket_worker_inert (decode : String → Option String)
    (known : List String) :
    ∀ (files : List String) (d : BucketIndex),
    (∀ f ∈ files, f ∈ known ∨ decode f = none) →
    (bucket_worker decode known files d).1 = d ∧
    ∀ m ∈ (bucket_worker decode known files d).2, m = d := by
  intro files
  induction files with
  | nil =>
    intro d _
    exact ⟨rfl, by simp [bucket_worker]⟩
  | cons g rest ih =>
    intro d hcover
    by_cases hg : g ∈ known
    · simp only [bucket_worker, if_pos hg]
      exact ih d (fun f hf => hcover f (List.mem_cons_of_mem _ hf))
    · have hdec : decode g = none := by
        rcases hcover g (List.mem_cons_self _ _) with h | h
        · exact absurd h hg
        · exact h
      simp only [bucket_worker, if_neg hg,
        process_image_none decode g d hdec]
      obtain ⟨h1, h2⟩ := ih d (fun f hf => hcover f (List.mem_cons_of_mem _ hf))
      refine ⟨h1, ?_⟩
      intro m hm
      rcases List.mem_cons.mp hm with rfl | hm'
      · rfl
      · exact h2 m hm'

/-- Counterexample for C7 as stated: with two workers whose shards share a
rounded aspect-ratio key, the first run loses `fA` to the per-key
`dict.update` overwrite, so `fA` is not in the known-files exclusion set of
the second run, which re-processes it and returns a different mapping with a
newly added file. -/
theorem compute_multi_worker_not_idempotent :
    compute_aspect_ratio_bucket_indices (fun _ => some "1.0") []
      [["fA"], ["fB"]] = [("1.0", ["fB"])] ∧
    compute_aspect_ratio_bucket_indices (fun _ => some "1.0")
        (compute_aspect_ratio_bucket_indices (fun _ => some "1.0") []
          [["fA"], ["fB"]])
        [["fA"], ["fB"]] = [("1.0", ["fB", "fA"])] ∧
    ([("1.0", ["fB", "fA"])] : BucketIndex) ≠ [("1.0", ["fB"])] := by
  refine ⟨rfl, rfl, by simp⟩

/-- C7 (amended): bulk bucket computation restricted to a single worker shard
is idempotent — a second run over the same candidate list returns the
identical mapping and appends nothing, because every file that decoded
successfully is already in some bucket (hence in the known-files exclusion
set) and every other file fails again without touching the mapping.  With
several shards sharing a key, the first run can lose entries to the per-key
`dict.update` overwrite and the second run then re-adds them (see the
counterexample). -/
theorem compute_single_worker_idempotent
    (decode : String → Option String) (base : BucketIndex)
    (files : List String) (hnd : (dictKeys base).Nodup) :
    compute_aspect_ratio_bucket_indices decode
        (compute_aspect_ratio_bucket_indices decode base [files]) [files] =
      compute_aspect_ratio_bucket_indices decode base [files] := by
  have hsingle : ∀ (b : BucketIndex),
      compute_aspect_ratio_bucket_indices decode b [files] =
        ((bucket_worker decode (knownFiles b) files b).2).foldl dictUpdate b := by
    intro b
    unfold compute_aspect_ratio_bucket_indices
    simp only [List.map_cons, List.map_nil, List.flatten_cons, List.flatten_nil,
      List.append_nil]
  set r1 := compute_aspect_ratio_bucket_indices decode base [files] with hr1
  have hnd1 : (dictKeys r1).Nodup := by
    rw [hr1, hsingle]
    exact foldl_dictUpdate_nodup _ base hnd
  have hcover : ∀ f ∈ files, f ∈ knownFiles r1 ∨ decode f = none := by
    intro f hf
    cases hdec : decode f with
    | none => exact Or.inr rfl
    | some k =>
      left
      by_cases hb : f ∈ knownFiles base
      · obtain ⟨k', hk'⟩ := inBucket_of_mem_knownFiles base f hnd hb
        apply mem_knownFiles_of_inBucket r1 k'
        rw [hr1, hsingle]
        exact coordinator_worker_preserves decode (knownFiles base) k' f files
          base base hnd hk' hk'
      · apply mem_knownFiles_of_inBucket r1 k
        rw [hr1, hsingle]
        exact coordinator_worker_invariant decode (knownFiles base) k f hdec
          files base base hnd (Or.inl ⟨hf, hb⟩)
  rw [hsingle r1]
  obtain ⟨_h1, h2⟩ := bucket_worker_inert decode (knownFiles r1) files r1 hcover
  exact foldl_dictUpdate_id _ r1 hnd1 h2

/-- Witness for the amended C7: one worker over `["fA", "fB"]` from an empty
base index. -/
theorem compute_single_worker_idempotent_witness :
    (dictKeys ([] : BucketIndex)).Nodup ∧
    compute_aspect_ratio_bucket_indices (fun _ => some "1.0")
        (compute_aspect_ratio_bucket_indices (fun _ => some "1.0") []
          [["fA", "fB"]]) [["fA", "fB"]] =
      compute_aspect_ratio_bucket_indices (fun _ => some "1.0") []
        [["fA", "fB"]] :=
  ⟨List.nodup_nil, compute_single_worker_idempotent (fun _ => some "1.0") []
    ["fA", "fB"] List.nodup_nil⟩

/-! ## Cache persistence (`load_aspect_ratio_bucket_indices` and the
cache write in `compute_aspect_ratio_bucket_indices`) -/

/-- Minimal JSON value AST covering the persisted cache payload. -/
inductive Json where
  | str : String → Json
  | arr : List Json → Json
  | obj : List (String × Json) → Json

/-- `json.dump` of the bucket mapping (a `str -> list[str]` dict). -/
def encodeIndex (d : BucketIndex) : Json :=
  Json.obj (d.map (fun kv => (kv.1, Json.arr (kv.2.map Json.str))))

def decodeStrList : List Json → Option (List String)
  | [] => some []
  | Json.str s :: rest => (decodeStrList rest).map (fun l => s :: l)
  | _ => none

def decodeFields : List (String × Json) → Option BucketIndex
  | [] => some []
  | (k, Json.arr xs) :: rest =>
    match decodeStrList xs, decodeFields rest with
    | some v, some r => some ((k, v) :: r)
    | _, _ => none
  | _ => none

/-- Reading a persisted payload back as a bucket mapping. -/
def decodeIndex : Json → Option BucketIndex
  | Json.obj fields => decodeFields fields
  | _ => none

/-- Result of `DreamBoothDataset.load_aspect_ratio_bucket_indices`: either the
value `json.load` produced (or the substituted empty dict), or an uncaught
exception. -/
inductive LoadResult where
  | ok : Json → LoadResult
  | raised : String → LoadResult

/-- `DreamBoothDataset.load_aspect_ratio_bucket_indices`.  The cache file is
modelled as `none` when absent, `some none` when its text is not valid JSON,
and `some (some j)` when it parses to `j`.  `cache_file.open("r")` executes
before the `try`, so an absent file raises `FileNotFoundError`; only a
`json.load` failure is caught by the bare `except`, which logs a warning and
substitutes the empty dict. -/
def load_aspect_ratio_bucket_indices (cache_file : Option (Option Json)) :
    LoadResult :=
  match cache_file with
  | none => LoadResult.raised "FileNotFoundError"
  | some none => LoadResult.ok (Json.obj [])
  | some (some j) => LoadResult.ok j

/-- Counterexample for C4 as stated: when the cache payload is missing (absent
file), `load_aspect_ratio_bucket_indices` does not return an empty index — the
`open` call raises `FileNotFoundError` to the caller, because it runs outside
the `try` block. -/
theorem load_absent_file_raises :
    load_aspect_ratio_bucket_indices none =
      LoadResult.raised "FileNotFoundError" := rfl

/-- C4 (amended): once the cache file opens, loading never raises: any content
yields a normal result, and unparsable (non-JSON) text degrades to the empty
index with a logged warning.  An absent cache file, however, raises
`FileNotFoundError` from `open` before the `try` block is entered. -/
theorem load_never_raises_once_open (content : Option Json) :
    (∃ j, load_aspect_ratio_bucket_indices (some content) = LoadResult.ok j) ∧
    (content = none →
      load_aspect_ratio_bucket_indices (some content) =
        LoadResult.ok (Json.obj [])) := by
  cases content with
  | none => exact ⟨⟨Json.obj [], rfl⟩, fun _ => rfl⟩
  | some j =>
    refine ⟨⟨j, rfl⟩, ?_⟩
    intro h
    cases h

/-- Witness for the amended C4 at unparsable cache content. -/
theorem load_never_raises_once_open_witness :
    (∃ j, load_aspect_ratio_bucket_indices (some none) = LoadResult.ok j) ∧
    ((none : Option Json) = none →
      load_aspect_ratio_bucket_indices (some none) =
        LoadResult.ok (Json.obj [])) :=
  load_never_raises_once_open none

/-- The dataset state relevant to cache persistence: the bucket mapping and
the known-file list `instance_images_path`. -/
structure DatasetState where
  aspect_ratio_bucket_indices : BucketIndex
  instance_images_path : List String

/-- The cache write at the end of `compute_aspect_ratio_bucket_indices`:
`json.dump(aspect_ratio_bucket_indices, f)` — only the bucket mapping is
serialized; the known-file list `instance_images_path` is not written. -/
def save_cache (st : DatasetState) : Json :=
  encodeIndex st.aspect_ratio_bucket_indices

theorem decodeStrList_encode (l : List String) :
    decodeStrList (l.map Json.str) = some l := by
  induction l with
  | nil => rfl
  | cons s rest ih => simp [decodeStrList, ih]

theorem decodeFields_encode (d : BucketIndex) :
    decodeFields (d.map (fun kv => (kv.1, Json.arr (kv.2.map Json.str)))) =
      some d := by
  induction d with
  | nil => rfl
  | cons kv rest ih =>
    simp [decodeFields, decodeStrList_encode, ih]

theorem decodeIndex_encode (d : BucketIndex) :
    decodeIndex (encodeIndex d) = some d :=
  decodeFields_encode d

/-- Counterexample for C5 as stated: a dataset state whose known-file list
contains `a.txt` (listed by `iterdir` but never bucketed) saves a payload that
holds only the (empty) bucket mapping; reloading reproduces the mapping but
recovers an empty known-files collection, not `["a.txt"]`. -/
theorem save_cache_drops_known_files :
    save_cache ⟨[], ["a.txt"]⟩ = Json.obj [] ∧
    load_aspect_ratio_bucket_indices (some (some (save_cache ⟨[], ["a.txt"]⟩))) =
      LoadResult.ok (Json.obj []) ∧
    decodeIndex (save_cache ⟨[], ["a.txt"]⟩) = some [] ∧
    knownFiles [] ≠ (DatasetState.mk [] ["a.txt"]).instance_images_path := by
  refine ⟨rfl, rfl, rfl, ?_⟩
  simp [knownFiles]

/-- C5 (amended): the cache write serializes only the bucket mapping (not the
known-file list), and save followed by load reproduces that bucket mapping
identically. -/
theorem save_load_roundtrip_mapping (st : DatasetState) :
    load_aspect_ratio_bucket_indices (some (some (save_cache st))) =
      LoadResult.ok (encodeIndex st.aspect_ratio_bucket_indices) ∧
    decodeIndex (save_cache st) = some st.aspect_ratio_bucket_indices :=
  ⟨rfl, decodeIndex_encode _⟩

/-! ## `MultiaspectImage.prepare_image` target-size computation -/

/-- Python `round(x, prec)` to `prec` decimal places (banker's rounding). -/
def pyroundTo (prec : ℕ) (q : ℚ) : ℚ :=
  (pyround (q * 10 ^ prec) : ℚ) / 10 ^ prec

/-- `MultiaspectImage.calculate_image_aspect_ratio` on a `(W, H)` size:
`round(width / height, to_round)` where `to_round` is the configured
`aspect_bucket_rounding` (defaulting to 2). -/
def calculate_image_aspect_ratio (prec : ℕ) (size : ℤ × ℤ) : ℚ :=
  pyroundTo prec ((size.1 : ℚ) / (size.2 : ℚ))

/-- `resolution_type`: `"pixel"` or `"area"`. -/
inductive ResolutionType where
  | pixel : ResolutionType
  | area : ResolutionType

/-- `MultiaspectImage.is_image_too_large`. -/
def is_image_too_large (size : ℤ × ℤ) (resolution : ℚ) :
    ResolutionType → Bool
  | .pixel => decide (resolution < (size.1 : ℚ)) || decide (resolution < (size.2 : ℚ))
  | .area => decide (resolution * 1000000 < ((size.1 * size.2 : ℤ) : ℚ))

/-- Geometry part of `MultiaspectImage.prepare_image` (lines 61-163): the
final `(target_width, target_height)` as a function of the original size, the
requested resolution and the per-source configuration.  `original_resolution`
is the alignment-rounded requested resolution (converted to pixels first in
area mode); when crop, `maximum_image_size` and `target_downsample_size` are
all configured and the source is too large, the first size computation runs
against `target_downsample_size`, the source is pre-shrunk to it, and the
target is then recomputed from `original_resolution` (converted back to
megapixels in area mode). -/
def prepare_image_target_size (sqrtApprox : ℚ → ℚ) (m prec : ℕ)
    (crop : Bool) (maximum_image_size target_downsample_size : Option ℚ)
    (size : ℤ × ℤ) (resolution : ℚ) (rtype : ResolutionType) : ℤ × ℤ :=
  let original_resolution : ℤ :=
    round_to_nearest_multiple m
      (match rtype with
       | .area => resolution * 1000
       | .pixel => resolution)
  let downsample_before_crop : Bool :=
    crop && maximum_image_size.isSome && target_downsample_size.isSome &&
      (match maximum_image_size with
       | some mx => is_image_too_large size mx rtype
       | none => false)
  let resolution' : ℚ :=
    if downsample_before_crop then target_downsample_size.getD resolution
    else resolution
  let ar : ℚ := calculate_image_aspect_ratio prec size
  let twh : ℤ × ℤ :=
    match rtype with
    | .pixel => calculate_new_size_by_pixel_edge m ar resolution'
    | .area => calculate_new_size_by_pixel_area sqrtApprox m ar resolution'
  if crop && downsample_before_crop then
    match rtype with
    | .area => calculate_new_size_by_pixel_area sqrtApprox m ar
        ((original_resolution : ℚ) / 1000)
    | .pixel => calculate_new_size_by_pixel_edge m ar
        ((original_resolution : ℚ))
  else twh

/-- Counterexample for C2 as stated: pixel mode, alignment 64, a 4000x2000
source (aspect ratio 2.0), requested resolution 1000, `maximum_image_size`
2048 and `target_downsample_size` 1024.  The downsample branch triggers and
recomputes the target from the alignment-rounded `original_resolution` 1024,
yielding 2048x1024, while computing directly from the original resolution 1000
yields 1984x1024 — the pre-shrink does change the final output geometry. -/
theorem prepare_image_downsample_changes_geometry :
    is_image_too_large (4000, 2000) 2048 ResolutionType.pixel = true ∧
    prepare_image_target_size (fun q => q) 64 2 true (some 2048) (some 1024)
      (4000, 2000) 1000 ResolutionType.pixel = (2048, 1024) ∧
    calculate_new_size_by_pixel_edge 64
      (calculate_image_aspect_ratio 2 (4000, 2000)) 1000 = (1984, 1024) ∧
    ((2048, 1024) : ℤ × ℤ) ≠ (1984, 1024) := by
  refine ⟨?_, ?_, ?_, by decide⟩
  · norm_num [is_image_too_large]
  · norm_num [prepare_image_target_size, is_image_too_large,
      calculate_image_aspect_ratio, pyroundTo, calculate_new_size_by_pixel_edge,
      round_to_nearest_multiple, pyround, min_def, Prod.ext_iff]
  · norm_num [calculate_image_aspect_ratio, pyroundTo,
      calculate_new_size_by_pixel_edge, round_to_nearest_multiple, pyround,
      min_def, Prod.ext_iff]

/-- C2 (amended): whenever the downsample-before-crop branch of
`prepare_image` triggers, the final target size equals the one
`calculate_new_size_by_pixel_edge` / `calculate_new_size_by_pixel_area` would
produce from the alignment-rounded `original_resolution`; consequently it
equals the direct (non-downsample) result exactly when the requested
resolution, in effective pixel units, is already a multiple of the alignment
constant — otherwise the two can differ (see the counterexample). -/
theorem prepare_image_downsample_recompute (sqrtApprox : ℚ → ℚ) (m prec : ℕ)
    (mx t : ℚ) (size : ℤ × ℤ) (resolution : ℚ) (rtype : ResolutionType)
    (htoo : is_image_too_large size mx rtype = true) :
    prepare_image_target_size sqrtApprox m prec true (some mx) (some t) size
        resolution rtype =
      (match rtype with
       | .pixel => calculate_new_size_by_pixel_edge m
           (calculate_image_aspect_ratio prec size)
           ((round_to_nearest_multiple m resolution : ℤ) : ℚ)
       | .area => calculate_new_size_by_pixel_area sqrtApprox m
           (calculate_image_aspect_ratio prec size)
           (((round_to_nearest_multiple m (resolution * 1000) : ℤ) : ℚ) / 1000)) ∧
    ((match rtype with
      | .pixel => ((round_to_nearest_multiple m resolution : ℤ) : ℚ) = resolution
      | .area => ((round_to_nearest_multiple m (resolution * 1000) : ℤ) : ℚ) =
          resolution * 1000) →
      prepare_image_target_size sqrtApprox m prec true (some mx) (some t) size
          resolution rtype =
        prepare_image_target_size sqrtApprox m prec true none none size
          resolution rtype) := by
  cases rtype with
  | pixel =>
    constructor
    · simp [prepare_image_target_size, htoo]
    · intro h
      simp only at h
      simp [prepare_image_target_size, htoo, h]
  | area =>
    constructor
    · simp [prepare_image_target_size, htoo]
    · intro h
      simp only at h
      have ht : (((round_to_nearest_multiple m (resolution * 1000) : ℤ) : ℚ) / 1000) =
          resolution := by
        rw [h, mul_div_assoc]
        norm_num
      simp [prepare_image_target_size, htoo, ht]

/-- Witness for the amended C2: pixel mode, alignment 64, requested resolution
1024 (already aligned), 4000x2000 source, `maximum_image_size = 2048`,
`target_downsample_size = 1024`. -/
theorem prepare_image_downsample_recompute_witness :
    (is_image_too_large (4000, 2000) 2048 ResolutionType.pixel = true) ∧
    (prepare_image_target_size (fun q => q) 64 2 true (some 2048) (some 1024)
        (4000, 2000) 1024 ResolutionType.pixel =
      calculate_new_size_by_pixel_edge 64
        (calculate_image_aspect_ratio 2 (4000, 2000))
        ((round_to_nearest_multiple 64 1024 : ℤ) : ℚ) ∧
     (((round_to_nearest_multiple 64 1024 : ℤ) : ℚ) = 1024 →
       prepare_image_target_size (fun q => q) 64 2 true (some 2048) (some 1024)
          (4000, 2000) 1024 ResolutionType.pixel =
        prepare_image_target_size (fun q => q) 64 2 true none none
          (4000, 2000) 1024 ResolutionType.pixel)) :=
  ⟨by norm_num [is_image_too_large],
   prepare_image_downsample_recompute (fun q => q) 64 2 2048 1024 (4000, 2000)
     1024 ResolutionType.pixel (by norm_num [is_image_too_large])⟩

end SimpleTuner
